import Mathlib

/-!
Shallow embedding of the gozer static-site generator (gozer.go) for checking
its natural-language specification.

Go byte strings are modelled as `List Char`, one `Char` per byte (all the
constants involved are ASCII, and Go indexes bytes).  `time.Time` values are
modelled by `GTime` (calendar dates; every date the program parses from a
filename is a midnight-UTC instant, and modification times are only ever
formatted, never compared, in the code regions treated here).  External
collaborators that the spec declares black boxes - the TOML decoder, the
Markdown converter, and the RFC-1123Z formatter - are parameters of the
embedded functions.  The filesystem is an association list from paths to
file data; `none` on lookup models a stat/open/read failure.
-/

namespace Gozer

/-- A Go byte string, one `Char` per byte. -/
abbrev GoStr := List Char

/-- Conversion from a Lean string literal to a Go byte string (ASCII only). -/
def gs (s : String) : GoStr := s.toList

/-- Embeds `strings.HasPrefix` / `bytes.HasPrefix`. -/
def hasPre (s pre : GoStr) : Bool := pre.isPrefixOf s

/-- Embeds `strings.HasSuffix`. -/
def hasSuf (s suf : GoStr) : Bool := suf.isSuffixOf s

/-- Embeds `strings.TrimPrefix`: drop `pre` when it is a prefix, else identity. -/
def cutPre (s pre : GoStr) : GoStr := if hasPre s pre then s.drop pre.length else s

/-- Embeds `strings.TrimSuffix`: drop `suf` when it is a suffix, else identity. -/
def cutSuf (s suf : GoStr) : GoStr := if hasSuf s suf then s.take (s.length - suf.length) else s

/-- Embeds `bytes.Index` / `strings.Index`: first index of `sub` in `s`
(`none` models Go's `-1`). -/
def indexOf (s sub : GoStr) : Option Nat :=
  if sub.isPrefixOf s then some 0
  else
    match s with
    | [] => none
    | _ :: t => (indexOf t sub).map (· + 1)

/-- Embeds `filepath.ToSlash`.  On unix the path separator already is `/`,
so the substitution is the identity. -/
def toSlash (s : GoStr) : GoStr := s

/-- Embeds `filepath.Base` for unix paths (volume names are empty):
empty path gives `"."`; otherwise trailing slashes are stripped, the part
after the last remaining `/` is returned, and an all-slash path gives `"/"`. -/
def filepathBase (path : GoStr) : GoStr :=
  if path = [] then ['.']
  else
    let p1 := (path.reverse.dropWhile (fun c => c = '/')).reverse
    let p2 := (p1.reverse.takeWhile (fun c => c ≠ '/')).reverse
    if p2 = [] then ['/'] else p2

/-- Embeds `strings.Split(s, "/")` (single-byte separator). -/
def goSplitSlash (s : GoStr) : List GoStr :=
  match s with
  | [] => [[]]
  | c :: t =>
    let r := goSplitSlash t
    if c = '/' then [] :: r
    else
      match r with
      | [] => [[c]]
      | h :: t2 => (c :: h) :: t2

/-- Model of `time.Time` at calendar-date granularity.  The Go zero value
`time.Time{}` is 0001-01-01 00:00:00 UTC, i.e. `⟨1, 1, 1⟩` here. -/
structure GTime where
  y : Nat
  mo : Nat
  d : Nat
deriving DecidableEq, Repr

/-- The Go zero time `time.Time{}` (0001-01-01). -/
def GTime.zero : GTime := ⟨1, 1, 1⟩

/-- Embeds `time.Time.IsZero`. -/
def GTime.isZero (t : GTime) : Bool := t = GTime.zero

/-- Embeds `time.Time.After` (strictly later instant) on dates:
lexicographic comparison of (year, month, day). -/
def GTime.After (a b : GTime) : Bool :=
  if a.y ≠ b.y then b.y < a.y
  else if a.mo ≠ b.mo then b.mo < a.mo
  else b.d < a.d

/-- Decimal digit test, as Go's `isDigit` over ASCII bytes. -/
def isDigitCh (c : Char) : Bool := '0' ≤ c ∧ c ≤ '9'

/-- Numeric value of a decimal digit byte. -/
def digitVal (c : Char) : Nat := c.toNat - 48

/-- Gregorian leap-year rule, as `time.isLeap`. -/
def isLeap (y : Nat) : Bool := y % 4 = 0 ∧ (y % 100 ≠ 0 ∨ y % 400 = 0)

/-- Days in a month, as `time.daysIn`. -/
def daysIn (mo y : Nat) : Nat :=
  if mo = 2 then (if isLeap y then 29 else 28)
  else if mo = 4 ∨ mo = 6 ∨ mo = 9 ∨ mo = 11 then 30
  else 31

/-- Embeds `time.Parse("2006-01-02", s)` for a 10-byte value `s`:
four year digits, a literal `-`, two month digits, a literal `-`, two day
digits; the month must be 1-12 and the day must fit the month (leap years
included), exactly as Go's parser validates.  `none` models a parse error. -/
def parseDate10 (s : GoStr) : Option GTime :=
  match s with
  | [y1, y2, y3, y4, h1, m1, m2, h2, d1, d2] =>
    if isDigitCh y1 ∧ isDigitCh y2 ∧ isDigitCh y3 ∧ isDigitCh y4 ∧
       h1 = '-' ∧ h2 = '-' ∧
       isDigitCh m1 ∧ isDigitCh m2 ∧ isDigitCh d1 ∧ isDigitCh d2 then
      let y := ((digitVal y1 * 10 + digitVal y2) * 10 + digitVal y3) * 10 + digitVal y4
      let mo := digitVal m1 * 10 + digitVal m2
      let d := digitVal d1 * 10 + digitVal d2
      if 1 ≤ mo ∧ mo ≤ 12 ∧ 1 ≤ d ∧ d ≤ daysIn mo y then some ⟨y, mo, d⟩ else none
    else none
  | _ => none

/-- The path normalisation at the head of `parseFilename` (gozer.go:79-83):
`filepath.ToSlash`, strip the `rootDir+"content/"` path head, strip a
trailing `.md`, then `.html`, then `index`. -/
def normalizePath (path rootDir : GoStr) : GoStr :=
  cutSuf (cutSuf (cutSuf (cutPre (toSlash path) (rootDir ++ gs ("content/"))) (gs (".md"))) (gs (".html"))) (gs ("index"))

/-- Embeds `parseFilename` (gozer.go:78-98): returns the URL path and the
optional date component (the Go zero time models "no date"). -/
def parseFilename (path rootDir : GoStr) : GoStr × GTime :=
  let path := normalizePath path rootDir
  let filename := filepathBase path
  let dated : Option (GoStr × GTime) :=
    if 11 < filename.length ∧ filename.get? 4 = some '-' ∧
       filename.get? 7 = some '-' ∧ filename.get? 10 = some '-' then
      (parseDate10 (filename.take 10)).map
        (fun date => (path.take (path.length - filename.length) ++ filename.drop 11 ++ ['/'], date))
    else none
  match dated with
  | some r => r
  | none => (if path ≠ [] ∧ ¬ hasSuf path (['/']) then path ++ ['/'] else path, GTime.zero)

/-- The `Page` struct (gozer.go:50-75). -/
structure Page where
  Title : GoStr
  Tags : List GoStr
  Category : GoStr
  Template : GoStr
  DatePublished : GTime
  DateModified : GTime
  Permalink : GoStr
  UrlPath : GoStr
  Filepath : GoStr
deriving DecidableEq, Repr

/-- The Go zero value of `Page`, used as the array default in the sorting
model (never observed at in-bounds indices). -/
def defaultPage : Page :=
  ⟨[], [], [], [], GTime.zero, GTime.zero, [], [], []⟩

/-- The `Site` struct (gozer.go:41-48). -/
structure Site where
  pages : List Page
  posts : List Page
  Title : GoStr
  SiteUrl : GoStr
  RootDir : GoStr
deriving DecidableEq, Repr

/-- One file's data as the model filesystem records it. -/
structure FileInfo where
  contents : GoStr
  modTime : GTime
deriving DecidableEq, Repr

/-- The model filesystem: association list from paths to file data.
A missing entry models stat/open/read failure for that path. -/
abbrev FS := List (GoStr × FileInfo)

/-- Path lookup in the model filesystem. -/
def fsLookup (fs : FS) (path : GoStr) : Option FileInfo :=
  match fs with
  | [] => none
  | (p, fi) :: rest => if p = path then some fi else fsLookup rest path

/-- The front-matter delimiter `var frontMatter = []byte("+++")` (gozer.go:32). -/
def fmDelim : GoStr := gs ("+++")

/-- The `toml.Unmarshal(doc, p)` collaborator, black-boxed: applies the
key-value document onto the page, or fails. -/
abbrev TomlDec := GoStr → Page → Except GoStr Page

/-- The Markdown converter `md.Convert`, black-boxed. -/
abbrev MdConv := GoStr → Except GoStr GoStr

/-- Error message of gozer.go:124, naming the source file. -/
def missingMsg (path : GoStr) : GoStr :=
  gs ("missing closing front-matter identifier in ") ++ path

/-- Embeds `parseFrontMatter` (gozer.go:100-129).  A single `fh.Read` into a
1024-byte buffer is modelled as `contents.take 1024` (an empty regular file
makes that read return `io.EOF`, which the function propagates as an error).
If the buffer does not start with `+++` the function is a no-op; otherwise
the bytes between the delimiters go to the TOML decoder, and a missing
second delimiter inside the buffer is an error naming the file. -/
def parseFrontMatter (tomlU : TomlDec) (fs : FS) (p : Page) : Except GoStr Page :=
  match fsLookup fs p.Filepath with
  | none => Except.error (gs ("open ") ++ p.Filepath)
  | some fi =>
    if fi.contents = [] then Except.error (gs ("EOF"))
    else
      let buf := fi.contents.take 1024
      if ¬ hasPre buf fmDelim then Except.ok p
      else
        let buf := buf.drop 3
        match indexOf buf fmDelim with
        | none => Except.error (missingMsg p.Filepath)
        | some pos => tomlU (buf.take pos) p

/-- The front-matter skipping step of `ParseContent` (gozer.go:137-143):
for contents longer than 6 bytes, everything up to 6 bytes past the first
`+++` occurrence at offset ≥ 3 is dropped (note: without checking that the
contents begin with `+++`). -/
def skipFM (fc : GoStr) : GoStr :=
  if 6 < fc.length then
    match indexOf (fc.drop 3) fmDelim with
    | some pos => fc.drop (pos + 6)
    | none => fc
  else fc

/-- Embeds `(*Page).ParseContent` (gozer.go:131-156): read the whole file,
apply the front-matter skip, then return the bytes directly for an `.html`
source and the Markdown conversion otherwise. -/
def parseContent (mdC : MdConv) (fs : FS) (p : Page) : Except GoStr GoStr :=
  match fsLookup fs p.Filepath with
  | none => Except.error (gs ("read ") ++ p.Filepath)
  | some fi =>
    let fc := skipFM fi.contents
    if hasSuf p.Filepath (gs (".html")) then Except.ok fc
    else mdC fc

/-- The category computation of `AddPageFromFile` (gozer.go:210-213):
`strings.Split(file, "/")[1]`, mapped to `"page"` when it ends in `.md`.
`none` models the index-out-of-range panic on a path without `/`. -/
def categoryOf (file : GoStr) : Option GoStr :=
  ((goSplitSlash file).get? 1).map (fun c => if hasSuf c (gs (".md")) then gs ("page") else c)

/-- Embeds `(*Site).AddPageFromFile` (gozer.go:202-237).  The outer `none`
models the panic of the category indexing; `Except.error` is the function's
error return (stat failure or front-matter failure), on which nothing has
been appended to the registry. -/
def addPageFromFile (tomlU : TomlDec) (fs : FS) (s : Site) (file : GoStr) :
    Option (Except GoStr Site) :=
  match fsLookup fs file with
  | none => some (Except.error (gs ("stat ") ++ file))
  | some fi =>
    let (urlPath, datePublished) := parseFilename file s.RootDir
    match categoryOf file with
    | none => none
    | some category =>
      let p : Page :=
        { Title := []
          Tags := []
          Category := category
          Template := gs ("default.html")
          DatePublished := datePublished
          DateModified := fi.modTime
          Permalink := s.SiteUrl ++ urlPath
          UrlPath := urlPath
          Filepath := file }
      match parseFrontMatter tomlU fs p with
      | Except.error e => some (Except.error e)
      | Except.ok p' =>
        let s := { s with pages := s.pages ++ [p'] }
        let s := if ¬ p'.DatePublished.isZero then { s with posts := s.posts ++ [p'] } else s
        some (Except.ok s)

/-!
Model of Go's `sort.Slice` (the generated pdqsort of `sort/zsortfunc.go`,
Go 1.19+).  The comparison closure passed in gozer.go:249-251 indexes the
slice being sorted, so comparisons always read the current array contents;
`lessAt` reflects that.  Go's `data.Swap`/element reads are always in
bounds; out-of-bounds accesses of the model (`getD`/`setD`) are therefore
never taken on reachable states.  The recursion of `pdqsortG` is driven by
a fuel counter initialised to the slice length, which bounds the number of
loop iterations and recursive calls (every `continue` and every recursive
call strictly shrinks `b - a`).
-/

section SortSlice

variable {α : Type} (lt : α → α → Bool) (d0 : α)

/-- Element read, as Go's in-bounds slice indexing. -/
def aget (arr : Array α) (i : Nat) : α := arr.getD i d0

/-- Embeds `data.Swap(i, j)`. -/
def aswap (arr : Array α) (i j : Nat) : Array α :=
  let x := aget d0 arr i
  let y := aget d0 arr j
  (arr.setD i y).setD j x

/-- Embeds `data.Less(i, j)` for the closure of gozer.go:250: compares the
current values at the two indices. -/
def lessAt (arr : Array α) (i j : Nat) : Bool := lt (aget d0 arr i) (aget d0 arr j)

/-- Inner loop of `insertionSort_func`: bubble the element at `j` left
while it is less than its left neighbour.  The loop runs at most `j - a`
times (each step decrements `j`), so the leading fuel counter, `j + 1` at
every call site, never reaches 0 before the loop's own exit condition: the
zero-fuel branch is unreachable and the recursion is Go's loop exactly.
(Structural fuel keeps every definition computable by the kernel.) -/
def insInner : Nat → Array α → Nat → Nat → Array α
  | 0, arr, _, _ => arr
  | fuel + 1, arr, a, j =>
    if a < j ∧ lessAt lt d0 arr j (j - 1) then
      insInner fuel (aswap d0 arr j (j - 1)) a (j - 1)
    else arr

/-- Outer loop of `insertionSort_func`; runs `b - i` times, so fuel `b`
is always sufficient. -/
def insOuter : Nat → Array α → Nat → Nat → Nat → Array α
  | 0, arr, _, _, _ => arr
  | fuel + 1, arr, a, b, i =>
    if i < b then insOuter fuel (insInner lt d0 (i + 1) arr a i) a b (i + 1) else arr

/-- Embeds `insertionSort_func(data, a, b)`. -/
def insertionSortG (arr : Array α) (a b : Nat) : Array α :=
  insOuter lt d0 b arr a b (a + 1)

/-- Sortedness hints of `sort/zsortfunc.go`. -/
inductive Hint where
  | inc
  | dec
  | unk
deriving DecidableEq, Repr

/-- Embeds `order2_func`: order two indices by their values, counting swaps. -/
def order2G (arr : Array α) (i j sw : Nat) : Nat × Nat × Nat :=
  if lessAt lt d0 arr j i then (j, i, sw + 1) else (i, j, sw)

/-- Embeds `median_func`: index of the median of three values. -/
def medianG (arr : Array α) (i j k sw : Nat) : Nat × Nat :=
  let (i1, j1, sw) := order2G lt d0 arr i j sw
  let (j2, _, sw) := order2G lt d0 arr j1 k sw
  let (_, j3, sw) := order2G lt d0 arr i1 j2 sw
  (j3, sw)

/-- Embeds `medianAdjacent_func`. -/
def medianAdjG (arr : Array α) (i sw : Nat) : Nat × Nat :=
  medianG lt d0 arr (i - 1) i (i + 1) sw

/-- Embeds `choosePivot_func`: median(-of-medians) pivot choice with a
sortedness hint derived from the swap count (0 swaps → increasing,
12 swaps → decreasing). -/
def choosePivotG (arr : Array α) (a b : Nat) : Nat × Hint :=
  let l := b - a
  let i := a + l / 4 * 1
  let j := a + l / 4 * 2
  let k := a + l / 4 * 3
  let (j, sw) :=
    if 8 ≤ l then
      if 50 ≤ l then
        let (i, sw) := medianAdjG lt d0 arr i 0
        let (j, sw) := medianAdjG lt d0 arr j sw
        let (k, sw) := medianAdjG lt d0 arr k sw
        medianG lt d0 arr i j k sw
      else medianG lt d0 arr i j k 0
    else (j, 0)
  (j, if sw = 0 then Hint.inc else if sw = 12 then Hint.dec else Hint.unk)

/-- Embeds `reverseRange_func`; at most `j - i` iterations, fuel `j + 1`
at the call site is always sufficient. -/
def revLoop : Nat → Array α → Nat → Nat → Array α
  | 0, arr, _, _ => arr
  | fuel + 1, arr, i, j =>
    if i < j then revLoop fuel (aswap d0 arr i j) (i + 1) (j - 1) else arr

/-- The interleaved scan of `partition_func`: advance `i` over elements
less than the pivot at `a`, retreat `j` over elements not less than it,
swap and repeat; `swapped` records whether any swap happened, so the
returned flag is Go's `alreadyPartitioned`.  Both exits perform the final
`data.Swap(j, a)`.  The `1 ≤ j` bound in the retreat guard is vacuous on
every state reachable from `partitionG` (there `i ≥ a + 1 ≥ 1`, so
`i ≤ j` already forces `1 ≤ j`); it only excludes Go's out-of-range
`j = -1` corner, which `partitionG` never reaches.  Every step shrinks
`j + 1 - i`, so fuel `j + 2` at the call site is always sufficient; the
zero-fuel branch is unreachable. -/
def partLoop : Nat → Array α → Nat → Nat → Nat → Bool → Array α × Nat × Bool
  | 0, arr, _, _, j, swapped => (arr, j, swapped)
  | fuel + 1, arr, a, i, j, swapped =>
    if i ≤ j ∧ lessAt lt d0 arr i a then partLoop fuel arr a (i + 1) j swapped
    else if i ≤ j ∧ 1 ≤ j ∧ ¬ lessAt lt d0 arr j a then partLoop fuel arr a i (j - 1) swapped
    else if i > j then (aswap d0 arr j a, j, !swapped)
    else partLoop fuel (aswap d0 arr i j) a (i + 1) (j - 1) true

/-- Embeds `partition_func(data, a, b, pivot)`: swaps the pivot to `a`,
partitions `(a, b)` around it, and returns the new array, the pivot's
final position and `alreadyPartitioned`. -/
def partitionG (arr : Array α) (a b pivot : Nat) : Array α × Nat × Bool :=
  partLoop lt d0 (b + 1) (aswap d0 arr a pivot) a (a + 1) (b - 1) false

/-- The scan of `partitionEqual_func`, interleaved the same way (and with
the same vacuous `1 ≤ j` bound and fuel convention as `partLoop`). -/
def partEqLoop : Nat → Array α → Nat → Nat → Nat → Array α × Nat
  | 0, arr, _, i, _ => (arr, i)
  | fuel + 1, arr, a, i, j =>
    if i ≤ j ∧ ¬ lessAt lt d0 arr a i then partEqLoop fuel arr a (i + 1) j
    else if i ≤ j ∧ 1 ≤ j ∧ lessAt lt d0 arr a j then partEqLoop fuel arr a i (j - 1)
    else if i > j then (arr, i)
    else partEqLoop fuel (aswap d0 arr i j) a (i + 1) (j - 1)

/-- Embeds `partitionEqual_func(data, a, b, pivot)`: partitions into
elements equal to the pivot and elements greater, returning the first
index of the greater part. -/
def partitionEqualG (arr : Array α) (a b pivot : Nat) : Array α × Nat :=
  partEqLoop lt d0 (b + 1) (aswap d0 arr a pivot) a (a + 1) (b - 1)

/-- The `i`-advance of `partialInsertionSort_func`: skip adjacent pairs
that are already in order.  At most `b - i` steps; fuel `b` suffices. -/
def advanceI : Nat → Array α → Nat → Nat → Nat
  | 0, _, _, i => i
  | fuel + 1, arr, b, i =>
    if i < b ∧ ¬ lessAt lt d0 arr i (i - 1) then advanceI fuel arr b (i + 1) else i

/-- Left shift loop of `partialInsertionSort_func`; at most `j` steps,
fuel `j` suffices. -/
def shiftL : Nat → Array α → Nat → Array α
  | 0, arr, _ => arr
  | fuel + 1, arr, j =>
    if 1 ≤ j ∧ lessAt lt d0 arr j (j - 1) then shiftL fuel (aswap d0 arr j (j - 1)) (j - 1)
    else arr

/-- Right shift loop of `partialInsertionSort_func`; at most `b - j`
steps, fuel `b` suffices. -/
def shiftR : Nat → Array α → Nat → Nat → Array α
  | 0, arr, _, _ => arr
  | fuel + 1, arr, b, j =>
    if j < b ∧ lessAt lt d0 arr j (j - 1) then shiftR fuel (aswap d0 arr j (j - 1)) b (j + 1)
    else arr

/-- The step-bounded loop of `partialInsertionSort_func` (`maxSteps = 5`,
`shortestShifting = 50`); returns the array and whether the range ended up
sorted. -/
def shiftInsLoop (a b : Nat) : Nat → Array α → Nat → Array α × Bool
  | 0, arr, _ => (arr, false)
  | steps + 1, arr, i =>
    let i := advanceI lt d0 b arr b i
    if i = b then (arr, true)
    else if b - a < 50 then (arr, false)
    else
      let arr := aswap d0 arr i (i - 1)
      let arr := if 2 ≤ i - a then shiftL lt d0 i arr (i - 1) else arr
      let arr := if 2 ≤ b - i then shiftR lt d0 b arr b (i + 1) else arr
      shiftInsLoop a b steps arr i

/-- Embeds `partialInsertionSort_func(data, a, b)`. -/
def shiftInsertionSort (arr : Array α) (a b : Nat) : Array α × Bool :=
  shiftInsLoop lt d0 a b 5 arr (a + 1)

/-- One sift of `siftDown_func`; the root index strictly grows each step,
so fuel `hi + 1` at the call sites is always sufficient. -/
def siftDownLoop : Nat → Array α → Nat → Nat → Nat → Array α
  | 0, arr, _, _, _ => arr
  | fuel + 1, arr, hi, first, root =>
    let child := 2 * root + 1
    if child < hi then
      let child :=
        if child + 1 < hi ∧ lessAt lt d0 arr (first + child) (first + child + 1) then child + 1
        else child
      if ¬ lessAt lt d0 arr (first + root) (first + child) then arr
      else siftDownLoop fuel (aswap d0 arr (first + root) (first + child)) hi first child
    else arr

/-- Heap construction loop of `heapSort_func` (the countdown counter `k`
stands for Go's loop index `i = k - 1`). -/
def heapBuildLoop (hi first : Nat) : Nat → Array α → Array α
  | 0, arr => arr
  | k + 1, arr => heapBuildLoop hi first k (siftDownLoop lt d0 (hi + 1) arr hi first k)

/-- Pop loop of `heapSort_func` (counter `k` stands for Go's `i = k - 1`). -/
def heapPopLoop (first : Nat) : Nat → Array α → Array α
  | 0, arr => arr
  | k + 1, arr =>
    heapPopLoop first k (siftDownLoop lt d0 (k + 1) (aswap d0 arr first (first + k)) k first 0)

/-- Embeds `heapSort_func(data, a, b)`. -/
def heapSortG (arr : Array α) (a b : Nat) : Array α :=
  let hi := b - a
  heapPopLoop lt d0 a hi (heapBuildLoop lt d0 hi a ((hi - 1) / 2 + 1) arr)

/-- Go's `math/bits.Len` on `uint`. -/
def bitsLen : Nat → Nat
  | 0 => 0
  | n + 1 => Nat.log2 (n + 1) + 1

/-- One step of the `xorshift` generator of `sort/zsortfunc.go`, on the
64-bit state as a `Nat` below `2^64`. -/
def xorshiftNext (s : Nat) : Nat × Nat :=
  let s := (s ^^^ (s <<< 13)) % 2 ^ 64
  let s := s ^^^ (s >>> 7)
  let s := (s ^^^ (s <<< 17)) % 2 ^ 64
  (s, s)

/-- Go's `nextPowerOfTwo`. -/
def nextPow2 (n : Nat) : Nat := 2 ^ bitsLen n

/-- One swap of `breakPatterns_func`. -/
def breakOne (modulus len a idx : Nat) (arr : Array α) (i rnd : Nat) : Array α :=
  let other := rnd &&& (modulus - 1)
  let other := if len ≤ other then other - len else other
  aswap d0 arr (idx - 1 + i) (a + other)

/-- Embeds `breakPatterns_func(data, a, b)`: for ranges of length ≥ 8,
swap three elements around the middle with pseudo-randomly chosen ones
(xorshift seeded with the length). -/
def breakPatternsG (arr : Array α) (a b : Nat) : Array α :=
  let len := b - a
  if 8 ≤ len then
    let (r1, s1) := xorshiftNext (len % 2 ^ 64)
    let (r2, s2) := xorshiftNext s1
    let (r3, _) := xorshiftNext s2
    let modulus := nextPow2 len
    let idx := a + len / 4 * 2 - 1
    breakOne d0 modulus len a idx (breakOne d0 modulus len a idx (breakOne d0 modulus len a idx arr 0 r1) 1 r2) 2 r3
  else arr

/-- Embeds `pdqsort_func(data, a, b, limit)` together with its enclosing
`for` loop; `wasB`/`wasP` are `wasBalanced`/`wasPartitioned`.  `fuel`
bounds loop iterations plus recursion depth; every continued or recursive
range is strictly shorter, so `fuel = b - a` at the entry point makes the
`fuel = 0` branch unreachable. -/
def pdqsortG : Nat → Array α → Nat → Nat → Nat → Bool → Bool → Array α
  | 0, arr, _, _, _, _, _ => arr
  | fuel + 1, arr, a, b, limit, wasB, wasP =>
    let length := b - a
    if length ≤ 12 then insertionSortG lt d0 arr a b
    else if limit = 0 then heapSortG lt d0 arr a b
    else
      let (arr, limit) := if ¬ wasB then (breakPatternsG d0 arr a b, limit - 1) else (arr, limit)
      let (pivot, hint) := choosePivotG lt d0 arr a b
      let (arr, pivot, hint) :=
        if hint = Hint.dec then (revLoop d0 b arr a (b - 1), (b - 1) - (pivot - a), Hint.inc)
        else (arr, pivot, hint)
      let (arr, done) :=
        if wasB ∧ wasP ∧ hint = Hint.inc then shiftInsertionSort lt d0 arr a b
        else (arr, false)
      if done then arr
      else if 0 < a ∧ ¬ lessAt lt d0 arr (a - 1) pivot then
        let (arr, mid) := partitionEqualG lt d0 arr a b pivot
        pdqsortG fuel arr mid b limit wasB wasP
      else
        let (arr, mid, alreadyP) := partitionG lt d0 arr a b pivot
        let wasP := alreadyP
        let leftLen := mid - a
        let rightLen := b - mid
        let wasB := length / 8 ≤ min leftLen rightLen
        if leftLen < rightLen then
          pdqsortG fuel (pdqsortG fuel arr a mid limit wasB wasP) (mid + 1) b limit wasB wasP
        else
          pdqsortG fuel (pdqsortG fuel arr (mid + 1) b limit wasB wasP) a mid limit wasB wasP

/-- Embeds `sort.Slice(l, less)`: pdqsort over the whole slice with
`limit = bits.Len(uint(n))`. -/
def sortSliceG (l : List α) : List α :=
  let n := l.length
  (pdqsortG lt d0 n l.toArray 0 n (bitsLen n) true true).toList

/-- Specification device (not from the source): insert `x` into a list
before the first element `y` with `lt x y`.  On a sorted prefix this is
the position where the insertion-sort inner loop deposits `x`. -/
def insertFun (x : α) : List α → List α
  | [] => [x]
  | y :: ys => if lt x y then x :: y :: ys else y :: insertFun x ys

/-- Specification device: left-to-right stable insertion sort. -/
def insortFun (l : List α) : List α :=
  l.foldl (fun acc x => insertFun lt x acc) []

end SortSlice

/-- The comparison closure of gozer.go:250:
`s.posts[i].DatePublished.After(s.posts[j].DatePublished)`. -/
def pageAfter (p q : Page) : Bool := p.DatePublished.After q.DatePublished

/-- The post-sorting step of `readContent` (gozer.go:249-251):
`sort.Slice(s.posts, ...)` descending by publish date. -/
def sortPosts (posts : List Page) : List Page := sortSliceG pageAfter defaultPage posts

/-- The `filepath.WalkDir` callback fold of `readContent` (gozer.go:241-246):
`files` lists the regular files under the walked directory in walk order
(directory entries return `nil` and are dropped here).  The callback
returns `AddPageFromFile`'s error, and `WalkDir` stops the walk at the
first non-nil callback error and returns it; the outer `none` propagates
the category-indexing panic. -/
def walkFiles (tomlU : TomlDec) (fs : FS) : Site → List GoStr → Option (Site × Option GoStr)
  | s, [] => some (s, none)
  | s, f :: rest =>
    match addPageFromFile tomlU fs s f with
    | none => none
    | some (Except.error e) => some (s, some e)
    | some (Except.ok s') => walkFiles tomlU fs s' rest

/-- Embeds `(*Site).readContent` (gozer.go:239-254): walk the content
tree, then sort `posts` by date (the sort runs even when the walk returned
an error, and the error is returned afterwards). -/
def readContent (tomlU : TomlDec) (fs : FS) (s : Site) (files : List GoStr) :
    Option (Site × Option GoStr) :=
  (walkFiles tomlU fs s files).map
    (fun r => ({ r.1 with posts := sortPosts r.1.posts }, r.2))

/-- The `readContent` call site of `buildSite` (gozer.go:530-533).
The `log` package is not part of this source file; modelled from the spec:
§7 classifies this path as fatal ("build aborts immediately"), so
`log.Fatal` is modelled as terminating the build with an error value.
`Except.error` is an aborted build, `Except.ok` the site the build
continues with. -/
def buildReadContent (tomlU : TomlDec) (fs : FS) (s : Site) (files : List GoStr) :
    Except GoStr Site :=
  match readContent tomlU fs s files with
  | none => Except.error (gs ("panic: index out of range"))
  | some (_, some e) => Except.error (gs ("Error reading content/: ") ++ e)
  | some (s', none) => Except.ok s'

/-- Loop of `filterPosts` (gozer.go:498-504): compact matching elements at
the front of the copied array, reading index `i`, writing index `n ≤ i`
(Go 1.22 `range` reads the current backing array each step, which this
index recursion mirrors). -/
def filterPostsLoop (tag : GoStr) (arr : Array Page) (i n : Nat) : Array Page × Nat :=
  if h : i < arr.size then
    let val := aget defaultPage arr i
    if val.Category = tag then filterPostsLoop tag (arr.setD n val) (i + 1) (n + 1)
    else filterPostsLoop tag arr (i + 1) n
  else (arr, n)
termination_by arr.size - i
decreasing_by
  · simp only [Array.size_setD]; omega
  · omega

/-- Embeds `filterPosts` (gozer.go:492-506): the sentinel tag `"page"`
returns the input unchanged; otherwise the posts whose category equals the
tag, in input order, are returned (via an in-place compaction of a copy). -/
def filterPosts (posts : List Page) (tag : GoStr) : List Page :=
  if tag = gs ("page") then posts
  else
    let r := filterPostsLoop tag posts.toArray 0 0
    r.1.toList.take r.2

/-- An `<item>` of the RSS feed (gozer.go:312-318). -/
structure Item where
  Title : GoStr
  Link : GoStr
  Description : GoStr
  PubDate : GoStr
  GUID : GoStr
deriving DecidableEq, Repr

/-- The RFC-1123Z date formatter used for `pubDate`, black-boxed. -/
abbrev Fmt1123 := GTime → GoStr

/-- One feed item as built at gozer.go:350-356. -/
def mkItem (fmtZ : Fmt1123) (p : Page) (content : GoStr) : Item :=
  { Title := p.Title
    Link := p.Permalink
    Description := content
    PubDate := fmtZ p.DatePublished
    GUID := p.Permalink }

/-- The item loop of `createRSSFeed` (gozer.go:343-357): re-render each
post's content; a parse error logs a warning and `continue`s (the entry is
omitted), otherwise the item is appended. -/
def feedItemsLoop (mdC : MdConv) (fmtZ : Fmt1123) (fs : FS) : List Page → List Item
  | [] => []
  | p :: rest =>
    match parseContent mdC fs p with
    | Except.error _ => feedItemsLoop mdC fmtZ fs rest
    | Except.ok c => mkItem fmtZ p c :: feedItemsLoop mdC fmtZ fs rest

/-- The item list of `createRSSFeed` (gozer.go:336-357): at most the first
10 posts of the registry (`n = min(len(posts), 10)`), each re-rendered. -/
def createRSSFeedItems (mdC : MdConv) (fmtZ : Fmt1123) (fs : FS) (s : Site) : List Item :=
  let n := s.posts.length
  let n := if 10 < n then 10 else n
  feedItemsLoop mdC fmtZ fs (s.posts.take n)

/-! ## Concrete instances used by witnesses and counterexamples -/

/-- A concrete Markdown converter: the identity conversion (exposes exactly
which bytes reach the converter). -/
def mdId : MdConv := fun s => Except.ok s

/-- A concrete Markdown converter that always fails. -/
def mdFail : MdConv := fun _ => Except.error (gs ("md error"))

/-- A concrete TOML decoder that applies no overrides. -/
def tomlOk : TomlDec := fun _ p => Except.ok p

/-- A concrete RFC-1123Z formatter (contents irrelevant to the claims). -/
def fmtZ0 : Fmt1123 := fun _ => gs ("date")

/-- A page backed by `content/a.md`. -/
def pageC2 : Page := { defaultPage with Filepath := gs ("content/a.md") }

/-- A filesystem whose only file does not begin with `+++` but contains
`+++` later in its body. -/
def fsC2 : FS := [(gs ("content/a.md"), ⟨gs ("ab +++ cd"), GTime.zero⟩)]

/-- A page backed by `content/big.md`. -/
def pageC10 : Page := { defaultPage with Filepath := gs ("content/big.md") }

/-- A file that opens a front-matter block whose closing `+++` lies beyond
the first 1024 bytes. -/
def fsC10 : FS :=
  [(gs ("content/big.md"), ⟨fmDelim ++ List.replicate 1100 'a' ++ fmDelim, GTime.zero⟩)]

/-- The same file truncated after byte 1103: identical in its first 1024
bytes, different beyond them. -/
def fsC10b : FS :=
  [(gs ("content/big.md"), ⟨fmDelim ++ List.replicate 1100 'a', GTime.zero⟩)]

/-- A fresh site with an empty registry (default root directory). -/
def siteC1 : Site :=
  { pages := [], posts := [], Title := [], SiteUrl := gs ("http://x/"), RootDir := [] }

/-- A content tree whose first walked file opens a front-matter block that
is never closed, followed by a perfectly fine sibling file. -/
def fsC1 : FS :=
  [(gs ("content/bad.md"), ⟨gs ("+++title"), GTime.zero⟩),
   (gs ("content/good.md"), ⟨gs ("hello"), GTime.zero⟩)]

/-- The walk order of `fsC1`'s files. -/
def filesC1 : List GoStr := [gs ("content/bad.md"), gs ("content/good.md")]

/-- A site whose configured root directory is `mysite/`. -/
def siteC3 : Site :=
  { pages := [], posts := [], Title := [], SiteUrl := [], RootDir := gs ("mysite/") }

/-- The content tree of the `mysite/` project root. -/
def fsC3 : FS := [(gs ("mysite/content/blog/post.md"), ⟨gs ("hello"), GTime.zero⟩)]

/-- A fresh site with empty base URL and default root directory. -/
def siteC3w : Site :=
  { pages := [], posts := [], Title := [], SiteUrl := [], RootDir := [] }

/-- A one-file content tree under the default root. -/
def fsC3w : FS := [(gs ("content/blog/post.md"), ⟨gs ("hello"), GTime.zero⟩)]

/-- The page that registering `content/blog/post.md` on `siteC3w` yields. -/
def pageC3w : Page :=
  { Title := [], Tags := [], Category := gs ("blog"), Template := gs ("default.html"),
    DatePublished := GTime.zero, DateModified := GTime.zero,
    Permalink := gs ("blog/post/"), UrlPath := gs ("blog/post/"),
    Filepath := gs ("content/blog/post.md") }

/-- The site after that registration. -/
def siteC3wAfter : Site :=
  { pages := [pageC3w], posts := [], Title := [], SiteUrl := [], RootDir := [] }

/-- Walk order of thirteen dated posts, publish dates alternating between
2024-01-01 (even positions) and 2024-01-02 (odd positions). -/
def filesC4 : List GoStr :=
  [gs ("content/blog/2024-01-01-p10.md"),
   gs ("content/blog/2024-01-02-p11.md"),
   gs ("content/blog/2024-01-01-p12.md"),
   gs ("content/blog/2024-01-02-p13.md"),
   gs ("content/blog/2024-01-01-p14.md"),
   gs ("content/blog/2024-01-02-p15.md"),
   gs ("content/blog/2024-01-01-p16.md"),
   gs ("content/blog/2024-01-02-p17.md"),
   gs ("content/blog/2024-01-01-p18.md"),
   gs ("content/blog/2024-01-02-p19.md"),
   gs ("content/blog/2024-01-01-p20.md"),
   gs ("content/blog/2024-01-02-p21.md"),
   gs ("content/blog/2024-01-01-p22.md")]

/-- The content tree backing `filesC4` (plain one-byte bodies). -/
def fsC4 : FS := filesC4.map (fun f => (f, ⟨gs ("x"), GTime.zero⟩))

/-- A fresh site for the `filesC4` walk. -/
def siteC4 : Site := { pages := [], posts := [], Title := [], SiteUrl := [], RootDir := [] }

/-- Three dated files for the small-registry witness: the walk meets dates
2023-01-01, 2024-01-01, 2023-01-01 (a tie) in that order. -/
def filesC4w : List GoStr :=
  [gs ("content/blog/2023-01-01-w1.md"),
   gs ("content/blog/2024-01-01-w2.md"),
   gs ("content/blog/2023-01-01-w3.md")]

/-- The content tree backing `filesC4w`. -/
def fsC4w : FS := filesC4w.map (fun f => (f, ⟨gs ("x"), GTime.zero⟩))

/-- The first witness post as discovered. -/
def pageC4a : Page :=
  ⟨[], [], gs ("blog"), gs ("default.html"), ⟨2023, 1, 1⟩, GTime.zero,
    gs ("blog/w1/"), gs ("blog/w1/"), gs ("content/blog/2023-01-01-w1.md")⟩

/-- The second witness post as discovered. -/
def pageC4b : Page :=
  ⟨[], [], gs ("blog"), gs ("default.html"), ⟨2024, 1, 1⟩, GTime.zero,
    gs ("blog/w2/"), gs ("blog/w2/"), gs ("content/blog/2024-01-01-w2.md")⟩

/-- The third witness post as discovered (publish date tied with the
first). -/
def pageC4c : Page :=
  ⟨[], [], gs ("blog"), gs ("default.html"), ⟨2023, 1, 1⟩, GTime.zero,
    gs ("blog/w3/"), gs ("blog/w3/"), gs ("content/blog/2023-01-01-w3.md")⟩

/-- The registry after walking `filesC4w`, before the posts re-sort. -/
def s0C4w : Site :=
  ⟨[pageC4a, pageC4b, pageC4c], [pageC4a, pageC4b, pageC4c], [], [], []⟩

/-! ## Theorems -/

/-- C5: for every file path whose final segment (after normalisation) does
not match the `YYYY-MM-DD-` date pattern (length > 11, dashes at byte
positions 4, 7, 10, first ten bytes a valid date), `parseFilename` returns
the Go zero time (no date) and a URL path equal to the normalised path
itself - the filename segment preserved verbatim - with a trailing slash
appended unless the path is empty or already ends in `/`. -/
theorem c5_parse_filename_no_date (path rootDir : GoStr)
    (h : ¬ (11 < (filepathBase (normalizePath path rootDir)).length ∧
            (filepathBase (normalizePath path rootDir)).get? 4 = some '-' ∧
            (filepathBase (normalizePath path rootDir)).get? 7 = some '-' ∧
            (filepathBase (normalizePath path rootDir)).get? 10 = some '-' ∧
            (parseDate10 ((filepathBase (normalizePath path rootDir)).take 10)).isSome)) :
    parseFilename path rootDir =
      (if normalizePath path rootDir ≠ [] ∧ ¬ hasSuf (normalizePath path rootDir) (['/'])
       then normalizePath path rootDir ++ ['/']
       else normalizePath path rootDir,
       GTime.zero) := by
  unfold parseFilename
  by_cases hc : (11 < (filepathBase (normalizePath path rootDir)).length ∧
      (filepathBase (normalizePath path rootDir)).get? 4 = some '-' ∧
      (filepathBase (normalizePath path rootDir)).get? 7 = some '-' ∧
      (filepathBase (normalizePath path rootDir)).get? 10 = some '-')
  · have hd : parseDate10 ((filepathBase (normalizePath path rootDir)).take 10) = none := by
      cases hd : parseDate10 ((filepathBase (normalizePath path rootDir)).take 10) with
      | none => rfl
      | some d => exact absurd ⟨hc.1, hc.2.1, hc.2.2.1, hc.2.2.2, by simp [hd]⟩ h
    simp only [if_pos hc, hd, Option.map_none']
  · simp only [if_neg hc]

/-- C5 witness: the undated source file `content/blog/hello.md` keeps its
filename segment verbatim and gets a trailing slash and no date. -/
theorem c5_parse_filename_no_date_witness :
    parseFilename (gs ("content/blog/hello.md")) (gs ("")) =
      (gs ("blog/hello/"), GTime.zero) := by
  have h := c5_parse_filename_no_date (gs ("content/blog/hello.md")) (gs ("")) (by decide)
  rw [h]; decide

/-- C6: for every file path whose normalised final segment is longer than
11 bytes, has `-` at positions 4, 7, 10 and whose first ten bytes parse as
a valid `YYYY-MM-DD` date, `parseFilename` returns that calendar date and
the URL path made of the directory prefix, the filename with its 11-byte
date prefix removed, and a trailing `/`. -/
theorem c6_parse_filename_dated (path rootDir : GoStr) (d : GTime)
    (h1 : 11 < (filepathBase (normalizePath path rootDir)).length)
    (h2 : (filepathBase (normalizePath path rootDir)).get? 4 = some '-')
    (h3 : (filepathBase (normalizePath path rootDir)).get? 7 = some '-')
    (h4 : (filepathBase (normalizePath path rootDir)).get? 10 = some '-')
    (h5 : parseDate10 ((filepathBase (normalizePath path rootDir)).take 10) = some d) :
    parseFilename path rootDir =
      ((normalizePath path rootDir).take
          ((normalizePath path rootDir).length -
            (filepathBase (normalizePath path rootDir)).length) ++
        (filepathBase (normalizePath path rootDir)).drop 11 ++ ['/'],
       d) := by
  unfold parseFilename
  have hc : 11 < (filepathBase (normalizePath path rootDir)).length ∧
      (filepathBase (normalizePath path rootDir)).get? 4 = some '-' ∧
      (filepathBase (normalizePath path rootDir)).get? 7 = some '-' ∧
      (filepathBase (normalizePath path rootDir)).get? 10 = some '-' := ⟨h1, h2, h3, h4⟩
  simp only [if_pos hc, h5, Option.map_some']

/-- C6 witness: `content/blog/2023-05-01-hello.md` yields the date
2023-05-01 and the URL path `blog/hello/`. -/
theorem c6_parse_filename_dated_witness :
    parseFilename (gs ("content/blog/2023-05-01-hello.md")) (gs ("")) =
      (gs ("blog/hello/"), ⟨2023, 5, 1⟩) := by
  have h := c6_parse_filename_dated (gs ("content/blog/2023-05-01-hello.md")) (gs (""))
    ⟨2023, 5, 1⟩ (by decide) (by decide) (by decide) (by decide) (by decide)
  rw [h]; decide

/-- C9: for every source file whose path ends in `.html`, `ParseContent`
returns the same result under any two Markdown converters (the converter
is never invoked), and when the file is readable the result is exactly the
file's bytes after the front-matter skip, unconverted. -/
theorem c9_parse_content_html (mdA mdB : MdConv) (fs : FS) (p : Page)
    (h : hasSuf p.Filepath (gs (".html"))) :
    parseContent mdA fs p = parseContent mdB fs p ∧
    (∀ fi, fsLookup fs p.Filepath = some fi →
      parseContent mdA fs p = Except.ok (skipFM fi.contents)) := by
  constructor
  · unfold parseContent
    cases fsLookup fs p.Filepath <;> simp [h]
  · intro fi hfi
    unfold parseContent
    rw [hfi]
    simp [h]

/-- C9 witness: a hand-written HTML page with a front-matter block renders
to its own bytes after the block, both under the identity converter and
under an always-failing converter. -/
theorem c9_parse_content_html_witness :
    parseContent mdId [(gs ("content/p.html"), ⟨gs ("+++t+++<b>x</b>"), GTime.zero⟩)]
        { defaultPage with Filepath := gs ("content/p.html") } =
      parseContent mdFail [(gs ("content/p.html"), ⟨gs ("+++t+++<b>x</b>"), GTime.zero⟩)]
        { defaultPage with Filepath := gs ("content/p.html") } ∧
    parseContent mdId [(gs ("content/p.html"), ⟨gs ("+++t+++<b>x</b>"), GTime.zero⟩)]
        { defaultPage with Filepath := gs ("content/p.html") } =
      Except.ok (gs ("<b>x</b>")) := by
  have h := c9_parse_content_html mdId mdFail
    [(gs ("content/p.html"), ⟨gs ("+++t+++<b>x</b>"), GTime.zero⟩)]
    { defaultPage with Filepath := gs ("content/p.html") } (by decide)
  exact ⟨h.1, by rw [h.2 ⟨gs ("+++t+++<b>x</b>"), GTime.zero⟩ (by decide)]; rfl⟩

/-- C2 (code bug): the source file `content/a.md` with bytes
`ab +++ cd` does not begin with the delimiter `+++`, yet `ParseContent`
hands only `" cd"` to the Markdown converter - the bytes up to six past
the `+++` occurrence at offset 3 are dropped, because gozer.go:137-143
never checks that the file begins with the delimiter (unlike
`parseFrontMatter`, gozer.go:114).  Under the identity converter the
result is `" cd"`, not the whole file. -/
theorem c2_parse_content_truncates_without_open_delimiter :
    parseContent mdId fsC2 pageC2 = Except.ok (gs (" cd")) ∧
    gs (" cd") ≠ gs ("ab +++ cd") := by
  exact ⟨by rfl, by decide⟩

/-- Helper: when the 1024-byte read buffer starts with the delimiter but
contains no second occurrence after it, `parseFrontMatter` fails with the
missing-closing error naming the file. -/
theorem parseFrontMatter_missing (tomlU : TomlDec) (fs : FS) (p : Page) (fi : FileInfo)
    (h1 : fsLookup fs p.Filepath = some fi)
    (h2 : hasPre (fi.contents.take 1024) fmDelim)
    (h3 : indexOf ((fi.contents.take 1024).drop 3) fmDelim = none) :
    parseFrontMatter tomlU fs p = Except.error (missingMsg p.Filepath) := by
  have hne : fi.contents ≠ [] := by
    intro he
    rw [he] at h2
    exact absurd h2 (by decide)
  unfold parseFrontMatter
  rw [h1]
  dsimp only
  rw [if_neg (by simpa using hne), if_neg (by simp [h2]), h3]

/-- C10: `parseFrontMatter` inspects only the first 1024 bytes of the file
(two filesystems that agree on those bytes are indistinguishable to it),
and for a file that begins with `+++` whose closing delimiter does not
occur within the inspected prefix, it fails with the
missing-closing-front-matter error naming the file - even when the
complete file does contain a closing delimiter. -/
theorem c10_front_matter_bounded_read (tomlU : TomlDec) (fs fs2 : FS) (p : Page)
    (fi fi2 : FileInfo)
    (h1 : fsLookup fs p.Filepath = some fi)
    (h2 : fsLookup fs2 p.Filepath = some fi2)
    (h3 : fi.contents.take 1024 = fi2.contents.take 1024)
    (h4 : hasPre fi.contents fmDelim)
    (h5 : indexOf ((fi.contents.take 1024).drop 3) fmDelim = none)
    (h6 : indexOf (fi.contents.drop 3) fmDelim ≠ none) :
    parseFrontMatter tomlU fs p = parseFrontMatter tomlU fs2 p ∧
    parseFrontMatter tomlU fs p = Except.error (missingMsg p.Filepath) := by
  have hne : fi.contents ≠ [] := by
    intro he
    rw [he] at h4
    exact absurd h4 (by decide)
  have hne2 : fi2.contents ≠ [] := by
    intro he
    rw [he] at h3
    simp only [List.take_nil] at h3
    exact hne ((List.take_eq_nil_iff.mp h3).resolve_left (by decide))
  constructor
  · unfold parseFrontMatter
    rw [h1, h2]
    dsimp only
    rw [if_neg (by simpa using hne)]
    conv_rhs => rw [if_neg (by simpa using hne2)]
    rw [h3]
  · have hpre : hasPre (fi.contents.take 1024) fmDelim := by
      unfold hasPre at h4 ⊢
      have hp := (List.isPrefixOf_iff_prefix.mp h4).take 1024
      rw [List.take_of_length_le (by decide : fmDelim.length ≤ 1024)] at hp
      exact List.isPrefixOf_iff_prefix.mpr hp
    exact parseFrontMatter_missing tomlU fs p fi h1 hpre h5

/-- Helper: no occurrence of the delimiter inside a run of `a`s. -/
theorem indexOf_replicate_a_none (k : Nat) :
    indexOf (List.replicate k 'a') fmDelim = none := by
  induction k with
  | zero => rfl
  | succ n ih =>
    rw [List.replicate_succ]
    unfold indexOf
    rw [if_neg (by simp [fmDelim, gs, List.isPrefixOf])]
    dsimp only
    rw [ih]
    rfl

/-- Helper: the delimiter after a run of `a`s is first found right after
the run. -/
theorem indexOf_replicate_a_fm (k : Nat) :
    indexOf (List.replicate k 'a' ++ fmDelim) fmDelim = some k := by
  induction k with
  | zero => rfl
  | succ n ih =>
    rw [List.replicate_succ, List.cons_append]
    unfold indexOf
    rw [if_neg (by simp [fmDelim, gs, List.isPrefixOf])]
    dsimp only
    rw [ih]
    rfl

/-- Helper: the inspected 1024-byte prefix of the C10 witness file. -/
theorem take1024_c10 :
    (fmDelim ++ List.replicate 1100 'a' ++ fmDelim).take 1024 =
      fmDelim ++ List.replicate 1021 'a' := by
  rw [List.append_assoc, List.take_append_eq_append_take,
    List.take_append_eq_append_take]
  rw [List.take_of_length_le (by decide : fmDelim.length ≤ 1024)]
  norm_num [fmDelim, gs, List.take_replicate]

/-- Helper: the truncated C10 witness file has the same 1024-byte prefix. -/
theorem take1024_c10b :
    (fmDelim ++ List.replicate 1100 'a').take 1024 =
      fmDelim ++ List.replicate 1021 'a' := by
  rw [List.take_append_eq_append_take]
  rw [List.take_of_length_le (by decide : fmDelim.length ≤ 1024)]
  norm_num [fmDelim, gs, List.take_replicate]

/-- C10 witness: a file of `+++`, 1100 `a`s, then `+++` - the closing
delimiter entirely beyond byte 1024 - produces the missing-closing error,
and the parse result is the same as for the file with the closing
delimiter removed altogether (only the first 1024 bytes are read). -/
theorem c10_front_matter_bounded_read_witness :
    parseFrontMatter tomlOk fsC10 pageC10 = parseFrontMatter tomlOk fsC10b pageC10 ∧
    parseFrontMatter tomlOk fsC10 pageC10 =
      Except.error (missingMsg (gs ("content/big.md"))) := by
  have h := c10_front_matter_bounded_read tomlOk fsC10 fsC10b pageC10
    ⟨fmDelim ++ List.replicate 1100 'a' ++ fmDelim, GTime.zero⟩
    ⟨fmDelim ++ List.replicate 1100 'a', GTime.zero⟩
    (by rfl) (by rfl)
    (by rw [take1024_c10, take1024_c10b])
    (by
      unfold hasPre
      exact List.isPrefixOf_iff_prefix.mpr
        ⟨List.replicate 1100 'a' ++ fmDelim, by rw [List.append_assoc]⟩)
    (by
      rw [take1024_c10, List.drop_append_eq_append_drop,
        List.drop_of_length_le (by decide : fmDelim.length ≤ 3)]
      norm_num
      exact indexOf_replicate_a_none 1021)
    (by
      rw [List.append_assoc, List.drop_append_eq_append_drop,
        List.drop_of_length_le (by decide : fmDelim.length ≤ 3)]
      rw [(by decide : 3 - List.length fmDelim = 0), List.drop_zero, List.nil_append]
      rw [indexOf_replicate_a_fm 1100]
      simp)
  exact h

/-- Bridge: `Array.setD` in terms of `List.set`. -/
theorem toList_setD {α : Type} (a : Array α) (i : Nat) (v : α) :
    (a.setD i v).toList = a.toList.set i v := by
  unfold Array.setD
  split
  · exact Array.toList_set a _ v
  · exact (List.set_eq_of_length_le
      (by simpa [Array.length_toList] using Nat.le_of_not_lt (by assumption))).symm

/-- Bridge: `aget` in terms of `List.getD`. -/
theorem aget_eq_getD {α : Type} (d : α) (arr : Array α) (i : Nat) :
    aget d arr i = arr.toList.getD i d := by
  unfold aget
  rw [Array.getD_eq_get?, List.getD_eq_getElem?_getD]
  rfl

/-- The loop of `filterPosts` compacts exactly the matching elements, in
order, after the already-written prefix. -/
theorem filterPostsLoop_inv (tag : GoStr) :
    ∀ k (arr : Array Page) (i n : Nat), arr.size - i = k → n ≤ i →
      (filterPostsLoop tag arr i n).1.toList.take (filterPostsLoop tag arr i n).2 =
        arr.toList.take n ++
          (arr.toList.drop i).filter (fun p => decide (p.Category = tag)) := by
  intro k
  induction k with
  | zero =>
    intro arr i n hk hni
    have hge : arr.size ≤ i := by omega
    rw [filterPostsLoop, dif_neg (Nat.not_lt.mpr hge)]
    rw [List.drop_eq_nil_of_le (by simpa [Array.length_toList] using hge)]
    simp
  | succ k ih =>
    intro arr i n hk hni
    have hlt : i < arr.size := by omega
    have hil : i < arr.toList.length := by simpa [Array.length_toList] using hlt
    rw [filterPostsLoop, dif_pos hlt]
    have hval : aget defaultPage arr i = arr.toList[i] := by
      rw [aget_eq_getD, List.getD_eq_getElem arr.toList defaultPage hil]
    rw [List.drop_eq_getElem_cons hil, List.filter_cons]
    by_cases hm : (aget defaultPage arr i).Category = tag
    · rw [if_pos hm]
      have hrec := ih (arr.setD n (aget defaultPage arr i)) (i + 1) (n + 1)
        (by simp only [Array.size_setD]; omega) (by omega)
      rw [hrec]
      rw [toList_setD]
      have hnl : n < arr.toList.length := by omega
      rw [List.set_eq_take_append_cons_drop, if_pos hnl]
      have hlen : (arr.toList.take n).length = n := List.length_take_of_le (by omega)
      have e1 : List.take (n + 1)
          (arr.toList.take n ++ aget defaultPage arr i :: arr.toList.drop (n + 1)) =
          arr.toList.take n ++ [aget defaultPage arr i] := by
        rw [List.take_append_eq_append_take,
          List.take_of_length_le (by omega : (arr.toList.take n).length ≤ n + 1), hlen]
        norm_num
      have e2 : List.drop (i + 1)
          (arr.toList.take n ++ aget defaultPage arr i :: arr.toList.drop (n + 1)) =
          arr.toList.drop (i + 1) := by
        rw [List.drop_append_eq_append_drop,
          List.drop_eq_nil_of_le (by omega : (arr.toList.take n).length ≤ i + 1), hlen]
        rw [(by omega : i + 1 - n = (i - n) + 1), List.drop_succ_cons, List.drop_drop]
        rw [List.nil_append]
        congr 1
        omega
      rw [e1, e2]
      have hdc : (fun p => decide (p.Category = tag)) arr.toList[i] = true := by
        rw [← hval]; simpa using hm
      rw [if_pos hdc]
      rw [← hval]
      simp
    · rw [if_neg hm]
      rw [ih arr (i + 1) n (by omega) (by omega)]
      have hdc : ¬ ((fun p => decide (p.Category = tag)) arr.toList[i] = true) := by
        rw [← hval]; simpa using hm
      rw [if_neg hdc]

/-- C7: `filterPosts` applied with the sentinel tag `"page"` returns its
input sequence unchanged, whatever the posts contain; with any other tag
it returns exactly the posts whose `Category` equals the tag verbatim, in
input order. -/
theorem c7_filter_posts_spec (posts : List Page) (tag : GoStr) :
    filterPosts posts tag =
      if tag = gs ("page") then posts
      else posts.filter (fun p => decide (p.Category = tag)) := by
  unfold filterPosts
  by_cases ht : tag = gs ("page")
  · rw [if_pos ht, if_pos ht]
  · rw [if_neg ht, if_neg ht]
    have h := filterPostsLoop_inv tag posts.toArray.size posts.toArray 0 0
      (by omega) (Nat.le_refl 0)
    simpa [Array.toList_toArray] using h

/-- C8: the feed holds at most 10 items, produced from the prefix of the
first 10 registry posts (the registry keeps posts date-descending, so
these are the most recent), each item's description obtained by re-running
the Content Renderer on that post's source file; a post whose rendering
fails is omitted while the remaining items are still produced. -/
theorem c8_feed_items_spec (mdC : MdConv) (fmtZ : Fmt1123) (fs : FS) (s : Site) :
    (createRSSFeedItems mdC fmtZ fs s).length ≤ 10 ∧
    createRSSFeedItems mdC fmtZ fs s =
      (s.posts.take 10).filterMap (fun p =>
        match parseContent mdC fs p with
        | Except.ok c => some (mkItem fmtZ p c)
        | Except.error _ => none) := by
  have key : ∀ l : List Page, feedItemsLoop mdC fmtZ fs l =
      l.filterMap (fun p =>
        match parseContent mdC fs p with
        | Except.ok c => some (mkItem fmtZ p c)
        | Except.error _ => none) := by
    intro l
    induction l with
    | nil => rfl
    | cons p rest ih =>
      rw [List.filterMap_cons]
      unfold feedItemsLoop
      cases hpc : parseContent mdC fs p with
      | error e => simp only [hpc, ih]
      | ok c => simp only [hpc, ih]
  have htake : s.posts.take (if 10 < s.posts.length then 10 else s.posts.length) =
      s.posts.take 10 := by
    split
    · rfl
    · rw [List.take_of_length_le (by omega), List.take_of_length_le (by omega)]
  have hmain : createRSSFeedItems mdC fmtZ fs s =
      (s.posts.take 10).filterMap (fun p =>
        match parseContent mdC fs p with
        | Except.ok c => some (mkItem fmtZ p c)
        | Except.error _ => none) := by
    unfold createRSSFeedItems
    dsimp only
    rw [htake, key]
  refine ⟨?_, hmain⟩
  rw [hmain]
  calc ((s.posts.take 10).filterMap _).length ≤ (s.posts.take 10).length :=
        List.length_filterMap_le _ _
    _ ≤ 10 := List.length_take_le _ _

/-- C1 (amended): when the first walked file opens a front-matter block
with no closing delimiter in the read prefix, its registration fails with
the missing-closing error naming that file, and the walk STOPS there: the
callback error propagates out of `filepath.WalkDir`, so none of the
remaining files is registered, `readContent` returns the error, and
`buildSite` treats it as fatal, aborting the whole build. -/
theorem c1_walk_stops_on_malformed_header (tomlU : TomlDec) (fs : FS) (s : Site)
    (f : GoStr) (rest : List GoStr) (fi : FileInfo)
    (h1 : fsLookup fs f = some fi)
    (h2 : hasPre (fi.contents.take 1024) fmDelim)
    (h3 : indexOf ((fi.contents.take 1024).drop 3) fmDelim = none)
    (h4 : ((goSplitSlash f).get? 1).isSome) :
    walkFiles tomlU fs s (f :: rest) = some (s, some (missingMsg f)) ∧
    readContent tomlU fs s (f :: rest) =
      some ({ s with posts := sortPosts s.posts }, some (missingMsg f)) ∧
    buildReadContent tomlU fs s (f :: rest) =
      Except.error (gs ("Error reading content/: ") ++ missingMsg f) := by
  obtain ⟨seg, hseg⟩ := Option.isSome_iff_exists.mp h4
  have hadd : addPageFromFile tomlU fs s f = some (Except.error (missingMsg f)) := by
    unfold addPageFromFile
    rw [h1]
    dsimp only
    unfold categoryOf
    rw [hseg]
    dsimp only [Option.map_some']
    rw [parseFrontMatter_missing tomlU fs _ fi h1 h2 h3]
  have hw : walkFiles tomlU fs s (f :: rest) = some (s, some (missingMsg f)) := by
    unfold walkFiles
    rw [hadd]
  have hr : readContent tomlU fs s (f :: rest) =
      some ({ s with posts := sortPosts s.posts }, some (missingMsg f)) := by
    unfold readContent
    rw [hw]
    rfl
  refine ⟨hw, hr, ?_⟩
  unfold buildReadContent
  rw [hr]

/-- C1 witness: on a content tree with a malformed first file and a fine
sibling, the walk stops with the error naming `content/bad.md` and the
build is aborted. -/
theorem c1_walk_stops_witness :
    walkFiles tomlOk fsC1 siteC1 filesC1 =
      some (siteC1, some (missingMsg (gs ("content/bad.md")))) ∧
    readContent tomlOk fsC1 siteC1 filesC1 =
      some ({ siteC1 with posts := sortPosts siteC1.posts },
        some (missingMsg (gs ("content/bad.md")))) ∧
    buildReadContent tomlOk fsC1 siteC1 filesC1 =
      Except.error (gs ("Error reading content/: ") ++ missingMsg (gs ("content/bad.md"))) := by
  exact c1_walk_stops_on_malformed_header tomlOk fsC1 siteC1 (gs ("content/bad.md"))
    [gs ("content/good.md")] ⟨gs ("+++title"), GTime.zero⟩ rfl (by decide) (by decide)
    (by decide)

/-- C1 counterexample to the claim as stated: with `content/bad.md`
(opening delimiter, no closing one) followed by the well-formed sibling
`content/good.md`, the walk registers NO page at all - the sibling's
registration is affected - and the build aborts with a fatal error, so the
build as a whole IS aborted. -/
theorem c1_claim_counterexample :
    (readContent tomlOk fsC1 siteC1 filesC1).map (fun r => r.1.pages.map Page.Filepath) =
      some [] ∧
    buildReadContent tomlOk fsC1 siteC1 filesC1 =
      Except.error (gs ("Error reading content/: ") ++ missingMsg (gs ("content/bad.md"))) := by
  exact ⟨rfl, rfl⟩

/-- Helper: `strings.Split` never yields an empty list. -/
theorem goSplitSlash_ne_nil (s : GoStr) : goSplitSlash s ≠ [] := by
  induction s with
  | nil => exact by decide
  | cons c t ih =>
    unfold goSplitSlash
    split
    · exact List.cons_ne_nil _ _
    · dsimp only
      match hr : goSplitSlash t with
      | [] => exact List.cons_ne_nil _ _
      | h :: t2 => exact List.cons_ne_nil _ _

/-- Helper: one unfolding of `goSplitSlash` on a non-slash head byte. -/
theorem goSplitSlash_cons_ne (c : Char) (t : GoStr) (hc : c ≠ '/') :
    goSplitSlash (c :: t) =
      match goSplitSlash t with
      | [] => [[c]]
      | h :: t2 => (c :: h) :: t2 := by
  conv_lhs => unfold goSplitSlash
  rw [if_neg hc]

/-- Helper: the head of `strings.Split(s, "/")` is the run of bytes of `s`
before its first `/`. -/
theorem goSplitSlash_head (s : GoStr) :
    (goSplitSlash s).head? = some (s.takeWhile (fun c => c ≠ '/')) := by
  induction s with
  | nil => rfl
  | cons c t ih =>
    by_cases hc : c = '/'
    · subst hc
      have hstep : goSplitSlash ('/' :: t) = [] :: goSplitSlash t := rfl
      rw [hstep]
      simp
    · rw [goSplitSlash_cons_ne c t hc]
      match hr : goSplitSlash t with
      | [] => exact absurd hr (goSplitSlash_ne_nil t)
      | h :: t2 =>
        rw [hr] at ih
        simp only [List.head?_cons, Option.some.injEq] at ih ⊢
        rw [List.takeWhile_cons]
        simp [hc, ih]

/-- Helper: splitting a path that starts with a slash-free segment and a
slash yields that segment followed by the split of the remainder. -/
theorem goSplitSlash_seg (rest : GoStr) :
    ∀ pre : GoStr, (∀ c ∈ pre, c ≠ '/') →
      goSplitSlash (pre ++ '/' :: rest) = pre :: goSplitSlash rest := by
  intro pre
  induction pre with
  | nil =>
    intro _
    rfl
  | cons c pre ih =>
    intro hmem
    have hc : c ≠ '/' := hmem c (by simp)
    have ih' := ih (fun x hx => hmem x (by simp [hx]))
    show goSplitSlash (c :: (pre ++ '/' :: rest)) = (c :: pre) :: goSplitSlash rest
    rw [goSplitSlash_cons_ne c _ hc, ih']

/-- Helper: element 1 of `strings.Split("content/" ++ rest, "/")` is the
first path segment of `rest`. -/
theorem goSplitSlash_content_get1 (rest : GoStr) :
    (goSplitSlash (gs ("content/") ++ rest)).get? 1 =
      some (rest.takeWhile (fun c => c ≠ '/')) := by
  have hra : gs ("content/") ++ rest = gs ("content") ++ '/' :: rest := rfl
  rw [hra, goSplitSlash_seg rest (gs ("content")) (by decide)]
  have hh := goSplitSlash_head rest
  match hr : goSplitSlash rest with
  | [] => exact absurd hr (goSplitSlash_ne_nil rest)
  | h :: t2 =>
    rw [hr] at hh
    simpa using hh

/-- Helper: `parseFrontMatter` leaves the category untouched whenever the
TOML decoder does. -/
theorem parseFrontMatter_keeps_category (tomlU : TomlDec) (fs : FS) (p p' : Page)
    (htoml : ∀ doc q q', tomlU doc q = Except.ok q' → q'.Category = q.Category)
    (hok : parseFrontMatter tomlU fs p = Except.ok p') :
    p'.Category = p.Category := by
  unfold parseFrontMatter at hok
  match hl : fsLookup fs p.Filepath with
  | none => rw [hl] at hok; exact absurd hok (by simp)
  | some fi =>
    rw [hl] at hok
    dsimp only at hok
    by_cases he : fi.contents = []
    · rw [if_pos he] at hok; exact absurd hok (by simp)
    · rw [if_neg he] at hok
      by_cases hp : hasPre (fi.contents.take 1024) fmDelim
      · rw [if_neg (by simp [hp])] at hok
        match hi : indexOf ((fi.contents.take 1024).drop 3) fmDelim with
        | none => rw [hi] at hok; exact absurd hok (by simp)
        | some pos =>
          rw [hi] at hok
          exact htoml _ p p' hok
      · rw [if_pos (by simpa using hp)] at hok
        cases hok
        rfl

/-- C3 (amended): with the DEFAULT project root (empty root path, walked
files of the form `content/<rest>`) and a front-matter block that does not
override the category, every registered page's category is the first path
segment under the content root, except that a segment ending in `.md` (in
particular a bare Markdown file at the content root) yields the category
`"page"`. -/
theorem c3_category_default_root (tomlU : TomlDec) (fs : FS) (s : Site)
    (rest : GoStr) (s' : Site)
    (htoml : ∀ doc q q', tomlU doc q = Except.ok q' → q'.Category = q.Category)
    (hreg : addPageFromFile tomlU fs s (gs ("content/") ++ rest) = some (Except.ok s')) :
    s'.pages.map Page.Category =
      s.pages.map Page.Category ++
        [if hasSuf (rest.takeWhile (fun c => c ≠ '/')) (gs (".md"))
         then gs ("page") else rest.takeWhile (fun c => c ≠ '/')] := by
  unfold addPageFromFile at hreg
  match hl : fsLookup fs (gs ("content/") ++ rest) with
  | none =>
    rw [hl] at hreg
    exact absurd hreg (by simp)
  | some fi =>
    rw [hl] at hreg
    dsimp only at hreg
    unfold categoryOf at hreg
    rw [goSplitSlash_content_get1 rest] at hreg
    dsimp only [Option.map_some'] at hreg
    match hpm : parseFrontMatter tomlU fs
        { Title := [], Tags := [],
          Category := if hasSuf (rest.takeWhile (fun c => c ≠ '/')) (gs (".md"))
            then gs ("page") else rest.takeWhile (fun c => c ≠ '/'),
          Template := gs ("default.html"),
          DatePublished := (parseFilename (gs ("content/") ++ rest) s.RootDir).2,
          DateModified := fi.modTime,
          Permalink := s.SiteUrl ++ (parseFilename (gs ("content/") ++ rest) s.RootDir).1,
          UrlPath := (parseFilename (gs ("content/") ++ rest) s.RootDir).1,
          Filepath := gs ("content/") ++ rest } with
    | Except.error e =>
      rw [hpm] at hreg
      exact absurd hreg (by simp)
    | Except.ok p' =>
      rw [hpm] at hreg
      have hcat := parseFrontMatter_keeps_category tomlU fs _ p' htoml hpm
      dsimp only at hreg
      split at hreg <;>
      · simp only [Option.some.injEq, Except.ok.injEq] at hreg
        subst hreg
        simp [hcat]

/-- C3 witness: under the default root, registering
`content/blog/post.md` (category-free front matter) gives a page whose
category is `blog`, the first path segment under the content root. -/
theorem c3_category_default_root_witness :
    siteC3wAfter.pages.map Page.Category = [gs ("blog")] := by
  have h := c3_category_default_root tomlOk fsC3w siteC3w (gs ("blog/post.md")) siteC3wAfter
    (by
      intro doc q q' hq
      simp only [tomlOk, Except.ok.injEq] at hq
      subst hq
      rfl)
    (by rfl)
  simpa using h

/-- C3 counterexample to the claim as stated: with the configured project
root directory `mysite/`, registering `mysite/content/blog/post.md` gives
a page whose category is `content` - the path segment at index 1 of the
full file path - not `blog`, the first path segment under the content
root.  The claim fails for this configured root directory. -/
theorem c3_claim_counterexample :
    (addPageFromFile tomlOk fsC3 siteC3 (gs ("mysite/content/blog/post.md"))).map
        (Except.map (fun s => s.pages.map Page.Category)) =
      some (Except.ok [gs ("content")]) ∧
    gs ("content") ≠ gs ("blog") := by
  exact ⟨rfl, by decide⟩

set_option maxRecDepth 40000 in
/-- C4 counterexample to the claim as stated: after discovering the
thirteen dated files of `filesC4` (dates alternating between 2024-01-01
and 2024-01-02), the posts that share the date 2024-01-02 come out of
`readContent` in the order p19, p11, p13, p15, p17, p21, while their
discovery (walk) order was p11, p13, p15, p17, p19, p21: `sort.Slice` is
pdqsort, not a stable sort, and beyond 12 elements it reorders ties. -/
theorem c4_claim_counterexample :
    (readContent tomlOk fsC4 siteC4 filesC4).map
        (fun r => (r.1.posts.filter (fun p => decide (p.DatePublished = ⟨2024, 1, 2⟩))).map
          Page.Filepath) =
      some [gs ("content/blog/2024-01-02-p19.md"), gs ("content/blog/2024-01-02-p11.md"),
        gs ("content/blog/2024-01-02-p13.md"), gs ("content/blog/2024-01-02-p15.md"),
        gs ("content/blog/2024-01-02-p17.md"), gs ("content/blog/2024-01-02-p21.md")] ∧
    (walkFiles tomlOk fsC4 siteC4 filesC4).map
        (fun r => (r.1.posts.filter (fun p => decide (p.DatePublished = ⟨2024, 1, 2⟩))).map
          Page.Filepath) =
      some [gs ("content/blog/2024-01-02-p11.md"), gs ("content/blog/2024-01-02-p13.md"),
        gs ("content/blog/2024-01-02-p15.md"), gs ("content/blog/2024-01-02-p17.md"),
        gs ("content/blog/2024-01-02-p19.md"), gs ("content/blog/2024-01-02-p21.md")] ∧
    ([gs ("content/blog/2024-01-02-p19.md"), gs ("content/blog/2024-01-02-p11.md"),
      gs ("content/blog/2024-01-02-p13.md"), gs ("content/blog/2024-01-02-p15.md"),
      gs ("content/blog/2024-01-02-p17.md"), gs ("content/blog/2024-01-02-p21.md")] : List GoStr) ≠
      [gs ("content/blog/2024-01-02-p11.md"), gs ("content/blog/2024-01-02-p13.md"),
       gs ("content/blog/2024-01-02-p15.md"), gs ("content/blog/2024-01-02-p17.md"),
       gs ("content/blog/2024-01-02-p19.md"), gs ("content/blog/2024-01-02-p21.md")] := by
  exact ⟨by decide, by decide, by decide⟩

section InsertProofs

variable {α : Type} (lt : α → α → Bool)

/-- Helper: `insertFun` splices `x` into the list: the part before `x` is
passed over (never strictly less positions), and the element right after
`x`, when present, is strictly greater in the `lt` sense. -/
theorem insertFun_splice (x : α) (S : List α) :
    ∃ A B, insertFun lt x S = A ++ x :: B ∧ S = A ++ B ∧
      (∀ q ∈ A, lt x q = false) ∧ (∀ hd tl, B = hd :: tl → lt x hd = true) := by
  induction S with
  | nil => exact ⟨[], [], rfl, rfl, by simp, by intro hd tl he; cases he⟩
  | cons y ys ih =>
    by_cases h : lt x y
    · refine ⟨[], y :: ys, by simp [insertFun, h], rfl, by simp, ?_⟩
      intro hd tl he
      cases he
      exact h
    · obtain ⟨A, B, h1, h2, h3, h4⟩ := ih
      refine ⟨y :: A, B, ?_, by simp [h2], ?_, h4⟩
      · simp [insertFun, h, h1]
      · intro q hq
        rcases List.mem_cons.mp hq with rfl | hq
        · simpa using h
        · exact h3 q hq

/-- Helper: inserting grows the length by one. -/
theorem length_insertFun (x : α) (S : List α) :
    (insertFun lt x S).length = S.length + 1 := by
  induction S with
  | nil => rfl
  | cons y ys ih => by_cases h : lt x y <;> simp [insertFun, h, ih]

/-- Helper: the insertion is a permutation of consing. -/
theorem insertFun_perm (x : α) (S : List α) : List.Perm (insertFun lt x S) (x :: S) := by
  induction S with
  | nil => exact List.Perm.refl _
  | cons y ys ih =>
    by_cases h : lt x y
    · rw [insertFun, if_pos h]
    · rw [insertFun, if_neg h]
      exact (ih.cons y).trans (List.Perm.swap x y ys)

/-- Helper: when nothing in `S` is strictly greater than `x` in the scan
sense, `x` lands at the end. -/
theorem insertFun_all_false (x : α) (S : List α) (h : ∀ q ∈ S, lt x q = false) :
    insertFun lt x S = S ++ [x] := by
  induction S with
  | nil => rfl
  | cons y ys ih =>
    rw [insertFun, if_neg (by simp [h y (by simp)]), ih (fun q hq => h q (by simp [hq]))]
    rfl

/-- Helper: insertion before a known strictly-greater element commutes
with appending that element's tail. -/
theorem insertFun_append_of_lt (x y : α) (hxy : lt x y = true) (Q R' : List α) :
    insertFun lt x (Q ++ y :: R') = insertFun lt x Q ++ y :: R' := by
  induction Q with
  | nil => simp [insertFun, hxy]
  | cons q Q ih =>
    by_cases h : lt x q
    · simp [insertFun, h]
    · show insertFun lt x (q :: (Q ++ y :: R')) = insertFun lt x (q :: Q) ++ y :: R'
      rw [insertFun, if_neg h, ih]
      rw [insertFun, if_neg h]
      rfl

/-- Helper: insertion into a sorted list stays sorted (`le a b` meaning
`lt b a = false`; `hA1` is asymmetry of `lt`, `hA2` transitivity of
`le`). -/
theorem insertFun_sorted
    (hA1 : ∀ a b, lt a b = true → lt b a = false)
    (hA2 : ∀ a b c, lt b a = false → lt c b = false → lt c a = false)
    (x : α) (S : List α) (hS : S.Pairwise (fun a b => lt b a = false)) :
    (insertFun lt x S).Pairwise (fun a b => lt b a = false) := by
  obtain ⟨A, B, h1, h2, h3, h4⟩ := insertFun_splice lt x S
  subst h2
  rw [h1]
  rw [List.pairwise_append] at hS
  obtain ⟨hPA, hPB, hcross⟩ := hS
  rw [List.pairwise_append]
  refine ⟨hPA, ?_, ?_⟩
  · rw [List.pairwise_cons]
    refine ⟨?_, hPB⟩
    intro b hb
    cases B with
    | nil => cases hb
    | cons z tl =>
      have hxz : lt x z = true := h4 z tl rfl
      have hzx : lt z x = false := hA1 x z hxz
      rcases List.mem_cons.mp hb with rfl | hb'
      · exact hzx
      · have hzb : lt b z = false := (List.pairwise_cons.mp hPB).1 b hb'
        exact hA2 x z b hzx hzb
  · intro a ha b hb
    rcases List.mem_cons.mp hb with rfl | hb'
    · exact h3 a ha
    · exact hcross a ha b hb'

/-- Helper: filtering a class of mutually-unordered elements commutes
with insertion: a member of the class is appended at the class's end
(stability), a non-member leaves the class untouched. -/
theorem insertFun_filter (pB : α → Bool)
    (hA2 : ∀ a b c, lt b a = false → lt c b = false → lt c a = false)
    (hP : ∀ a b, pB a = true → pB b = true → lt a b = false)
    (x : α) (S : List α) (hS : S.Pairwise (fun a b => lt b a = false)) :
    (insertFun lt x S).filter pB =
      if pB x then S.filter pB ++ [x] else S.filter pB := by
  obtain ⟨A, B, h1, h2, h3, h4⟩ := insertFun_splice lt x S
  subst h2
  rw [h1]
  rw [List.pairwise_append] at hS
  obtain ⟨hPA, hPB, hcross⟩ := hS
  by_cases hx : pB x
  · rw [if_pos hx]
    have hB : ∀ w ∈ B, pB w = false := by
      intro w hw
      cases B with
      | nil => cases hw
      | cons z tl =>
        have hxz : lt x z = true := h4 z tl rfl
        rcases List.mem_cons.mp hw with rfl | hw'
        · by_contra hc
          rw [Bool.not_eq_false] at hc
          rw [hP x w hx hc] at hxz
          cases hxz
        · by_contra hc
          rw [Bool.not_eq_false] at hc
          have hwz : lt w z = false := (List.pairwise_cons.mp hPB).1 w hw'
          have hxw : lt x w = false := hP x w hx hc
          rw [hA2 z w x hwz hxw] at hxz
          cases hxz
    have hBnil : B.filter pB = [] :=
      List.filter_eq_nil_iff.mpr (by intro a ha; simp [hB a ha])
    simp [List.filter_append, List.filter_cons, hx, hBnil]
  · rw [if_neg hx]
    simp [List.filter_append, List.filter_cons, hx]

/-- Helper: reading at the length of the left part lands on the marked
element. -/
theorem getD_append_len (Q : List α) (z : α) (R : List α) (d : α) :
    (Q ++ z :: R).getD Q.length d = z := by
  induction Q with
  | nil => rfl
  | cons q Q ih => simpa using ih

/-- Helper: the two writes of an adjacent swap exchange the two marked
elements. -/
theorem set_swap_adj (Q : List α) (y x : α) (R : List α) :
    ((Q ++ y :: x :: R).set (Q.length + 1) y).set Q.length x = Q ++ x :: y :: R := by
  induction Q with
  | nil => rfl
  | cons q Q ih => simpa using ih

/-- Helper: the insertion-sort inner loop started at the end of a sorted
prefix `P` followed by `x` bubbles `x` to its insertion position in `P`,
touching nothing else; fuel `|P| + 1` suffices. -/
theorem insInner_bubble (d0 : α)
    (hA2 : ∀ a b c, lt b a = false → lt c b = false → lt c a = false) :
    ∀ (P : List α) (x : α) (R : List α) (arr : Array α) (fuel : Nat),
      arr.toList = P ++ x :: R → P.Pairwise (fun a b => lt b a = false) →
      P.length + 1 ≤ fuel →
      (insInner lt d0 fuel arr 0 P.length).toList = insertFun lt x P ++ R := by
  intro P
  induction P using List.reverseRecOn with
  | nil =>
    intro x R arr fuel harr hP hfuel
    obtain ⟨f, rfl⟩ : ∃ f, fuel = f + 1 := ⟨fuel - 1, by omega⟩
    rw [insInner, if_neg (by simp)]
    simpa using harr
  | append_singleton Q y ih =>
    intro x R arr fuel harr hP hfuel
    obtain ⟨f, rfl⟩ : ∃ f, fuel = f + 1 := ⟨fuel - 1, by omega⟩
    have harr' : arr.toList = Q ++ y :: x :: R := by
      rw [harr, List.append_assoc]
      rfl
    have hget_x : aget d0 arr (Q.length + 1) = x := by
      rw [aget_eq_getD, harr']
      have h := getD_append_len (Q ++ [y]) x R d0
      simp only [List.append_assoc, List.length_append, List.length_singleton] at h
      simpa using h
    have hget_y : aget d0 arr Q.length = y := by
      rw [aget_eq_getD, harr']
      exact getD_append_len Q y (x :: R) d0
    have hQsorted : Q.Pairwise (fun a b => lt b a = false) :=
      (List.pairwise_append.mp hP).1
    have hQy : ∀ q ∈ Q, lt y q = false := by
      intro q hq
      exact (List.pairwise_append.mp hP).2.2 q hq y (by simp)
    have hlenQy : (Q ++ [y]).length = Q.length + 1 := by simp
    rw [insInner, hlenQy]
    by_cases hxy : lt x y
    · have hcond : 0 < Q.length + 1 ∧ lessAt lt d0 arr (Q.length + 1) (Q.length + 1 - 1) := by
        refine ⟨by omega, ?_⟩
        simp only [Nat.add_sub_cancel]
        unfold lessAt
        rw [hget_x, hget_y]
        exact hxy
      rw [if_pos hcond]
      have hswap : (aswap d0 arr (Q.length + 1) (Q.length + 1 - 1)).toList =
          Q ++ x :: y :: R := by
        unfold aswap
        simp only [Nat.add_sub_cancel]
        rw [toList_setD, toList_setD, hget_x, hget_y]
        have hset : (arr.toList.set (Q.length + 1) y) = (Q ++ y :: x :: R).set (Q.length + 1) y := by
          rw [harr']
        rw [hset]
        exact set_swap_adj Q y x R
      have hrec := ih x (y :: R) (aswap d0 arr (Q.length + 1) (Q.length + 1 - 1)) f
        hswap hQsorted (by simp at hfuel; omega)
      simp only [Nat.add_sub_cancel] at hrec ⊢
      rw [hrec]
      rw [insertFun_append_of_lt lt x y hxy Q []]
      simp
    · have hcond : ¬ (0 < Q.length + 1 ∧ lessAt lt d0 arr (Q.length + 1) (Q.length + 1 - 1)) := by
        intro hc
        have := hc.2
        simp only [Nat.add_sub_cancel] at this
        unfold lessAt at this
        rw [hget_x, hget_y] at this
        exact absurd this (by simp [hxy])
      rw [if_neg hcond]
      have hall : ∀ q ∈ Q ++ [y], lt x q = false := by
        intro q hq
        rcases List.mem_append.mp hq with hq | hq
        · exact hA2 q y x (hQy q hq) (by simpa using hxy)
        · simp only [List.mem_singleton] at hq
          subst hq
          simpa using hxy
      rw [insertFun_all_false lt x (Q ++ [y]) hall, harr]
      simp

/-- Helper: the insertion-sort outer loop over the unsorted remainder `T`
behind the sorted prefix `S` computes the left fold of insertions; fuel
`|T|` suffices. -/
theorem insOuter_fold (d0 : α)
    (hA1 : ∀ a b, lt a b = true → lt b a = false)
    (hA2 : ∀ a b c, lt b a = false → lt c b = false → lt c a = false) :
    ∀ (T S : List α) (arr : Array α) (fuel b : Nat),
      arr.toList = S ++ T → S.Pairwise (fun a b => lt b a = false) →
      T.length ≤ fuel → b = arr.size →
      (insOuter lt d0 fuel arr 0 b S.length).toList =
        T.foldl (fun acc x => insertFun lt x acc) S := by
  intro T
  induction T with
  | nil =>
    intro S arr fuel b harr hS hfuel hb
    have hlen : arr.toList.length = S.length := by rw [harr]; simp
    have hsb : S.length = b := by
      rw [hb, ← Array.length_toList, hlen]
    cases fuel with
    | zero =>
      rw [insOuter]
      simpa using harr
    | succ f =>
      rw [insOuter, if_neg (by omega)]
      simpa using harr
  | cons x T' ih =>
    intro S arr fuel b harr hS hfuel hb
    obtain ⟨f, rfl⟩ : ∃ f, fuel = f + 1 := ⟨fuel - 1, by simp at hfuel; omega⟩
    have hlen : arr.toList.length = S.length + (T'.length + 1) := by rw [harr]; simp
    have hib : S.length < b := by
      rw [hb, ← Array.length_toList]
      omega
    rw [insOuter, if_pos hib]
    have hbub := insInner_bubble lt d0 hA2 S x T' arr (S.length + 1) harr hS (Nat.le_refl _)
    have hS' : (insertFun lt x S).Pairwise (fun a b => lt b a = false) :=
      insertFun_sorted lt hA1 hA2 x S hS
    have hb' : b = (insInner lt d0 (S.length + 1) arr 0 S.length).size := by
      rw [← Array.length_toList, hbub]
      rw [hb, ← Array.length_toList]
      simp only [List.length_append, length_insertFun]
      omega
    have ihh := ih (insertFun lt x S) (insInner lt d0 (S.length + 1) arr 0 S.length) f b
      hbub hS' (by simp at hfuel; omega) hb'
    rw [length_insertFun] at ihh
    exact ihh

/-- Helper: Go's `insertionSort_func` over a whole array is the stable
functional insertion sort. -/
theorem insertionSortG_eq (d0 : α)
    (hA1 : ∀ a b, lt a b = true → lt b a = false)
    (hA2 : ∀ a b c, lt b a = false → lt c b = false → lt c a = false)
    (l : List α) :
    (insertionSortG lt d0 l.toArray 0 l.length).toList = insortFun lt l := by
  cases l with
  | nil => rfl
  | cons x rest =>
    unfold insertionSortG
    have h := insOuter_fold lt d0 hA1 hA2 rest [x] (x :: rest).toArray
      (x :: rest).length (x :: rest).length (by simp) (by simp)
      (by simp) (by simp)
    simpa [insortFun] using h

/-- Helper: for at most 12 elements `sort.Slice` takes the insertion-sort
path, so it equals the stable functional insertion sort. -/
theorem sortSliceG_small (d0 : α)
    (hA1 : ∀ a b, lt a b = true → lt b a = false)
    (hA2 : ∀ a b c, lt b a = false → lt c b = false → lt c a = false)
    (l : List α) (hlen : l.length ≤ 12) :
    sortSliceG lt d0 l = insortFun lt l := by
  unfold sortSliceG
  cases l with
  | nil => rfl
  | cons x rest =>
    dsimp only
    simp only [List.length_cons]
    rw [pdqsortG, if_pos (by simpa using hlen)]
    have h := insertionSortG_eq lt d0 hA1 hA2 (x :: rest)
    simpa using h

/-- Helper: the fold of insertions keeps a sorted accumulator sorted. -/
theorem foldl_insert_sorted
    (hA1 : ∀ a b, lt a b = true → lt b a = false)
    (hA2 : ∀ a b c, lt b a = false → lt c b = false → lt c a = false) :
    ∀ (l S : List α), S.Pairwise (fun a b => lt b a = false) →
      (l.foldl (fun acc x => insertFun lt x acc) S).Pairwise (fun a b => lt b a = false) := by
  intro l
  induction l with
  | nil => intro S hS; exact hS
  | cons x l ih =>
    intro S hS
    exact ih (insertFun lt x S) (insertFun_sorted lt hA1 hA2 x S hS)

/-- Helper: the fold of insertions permutes the accumulator plus input. -/
theorem foldl_insert_perm :
    ∀ (l S : List α),
      List.Perm (l.foldl (fun acc x => insertFun lt x acc) S) (S ++ l) := by
  intro l
  induction l with
  | nil => intro S; simp
  | cons x l ih =>
    intro S
    refine (ih (insertFun lt x S)).trans ?_
    have h1 : List.Perm (insertFun lt x S ++ l) ((x :: S) ++ l) :=
      (insertFun_perm lt x S).append_right l
    refine h1.trans ?_
    exact List.perm_middle.symm

/-- Helper: the fold of insertions preserves the relative order of every
class of mutually-unordered elements (stability). -/
theorem foldl_insert_filter (pB : α → Bool)
    (hA1 : ∀ a b, lt a b = true → lt b a = false)
    (hA2 : ∀ a b c, lt b a = false → lt c b = false → lt c a = false)
    (hP : ∀ a b, pB a = true → pB b = true → lt a b = false) :
    ∀ (l S : List α), S.Pairwise (fun a b => lt b a = false) →
      (l.foldl (fun acc x => insertFun lt x acc) S).filter pB =
        S.filter pB ++ l.filter pB := by
  intro l
  induction l with
  | nil => intro S hS; simp
  | cons x l ih =>
    intro S hS
    have hstep := insertFun_filter lt pB hA2 hP x S hS
    have hrec := ih (insertFun lt x S) (insertFun_sorted lt hA1 hA2 x S hS)
    show (l.foldl (fun acc x => insertFun lt x acc) (insertFun lt x S)).filter pB = _
    rw [hrec, hstep, List.filter_cons]
    by_cases hx : pB x
    · simp [hx]
    · simp [hx]

end InsertProofs

/-- Helper: the comparison of gozer.go:250 is asymmetric. -/
theorem pageAfter_asym (p q : Page) (h : pageAfter p q = true) : pageAfter q p = false := by
  unfold pageAfter GTime.After at h ⊢
  split_ifs at h ⊢ <;> simp_all <;> omega

/-- Helper: `not After` (publication not later) is transitive. -/
theorem pageAfter_letrans (p q r : Page) (h1 : pageAfter q p = false)
    (h2 : pageAfter r q = false) : pageAfter r p = false := by
  unfold pageAfter GTime.After at h1 h2 ⊢
  split_ifs at h1 h2 ⊢ <;> simp_all <;> omega

/-- Helper: posts sharing a publish date are never strictly ordered. -/
theorem pageAfter_same_date (d : GTime) (p q : Page)
    (hp : p.DatePublished = d) (hq : q.DatePublished = d) : pageAfter p q = false := by
  unfold pageAfter GTime.After
  rw [hp, hq]
  simp

/-- C4 (amended): after content discovery, `readContent` returns the walk
result with `posts` re-sorted by `sort.Slice`; when the registry holds at
most 12 posts that sort is Go's insertion sort, so the sequence is
descending by `datePublished` on every adjacent pair, is a permutation of
the discovered posts, and posts with equal `datePublished` retain walk
order.  (Beyond 12 posts, pdqsort still gives the descending order by the
`sort.Slice` contract but need not preserve tie order - see the
counterexample.) -/
theorem c4_posts_sorted_small (tomlU : TomlDec) (fs : FS) (s : Site)
    (files : List GoStr) (s₀ : Site) (e : Option GoStr)
    (hw : walkFiles tomlU fs s files = some (s₀, e))
    (hlen : s₀.posts.length ≤ 12) :
    readContent tomlU fs s files = some ({ s₀ with posts := sortPosts s₀.posts }, e) ∧
    List.Chain' (fun p q => pageAfter q p = false) (sortPosts s₀.posts) ∧
    List.Perm (sortPosts s₀.posts) s₀.posts ∧
    ∀ d : GTime, (sortPosts s₀.posts).filter (fun p => decide (p.DatePublished = d)) =
      s₀.posts.filter (fun p => decide (p.DatePublished = d)) := by
  have hA1 : ∀ a b : Page, pageAfter a b = true → pageAfter b a = false := fun a b h =>
    pageAfter_asym a b h
  have hA2 : ∀ a b c : Page, pageAfter b a = false → pageAfter c b = false →
      pageAfter c a = false := fun a b c h1 h2 => pageAfter_letrans a b c h1 h2
  have hsort : sortPosts s₀.posts = insortFun pageAfter s₀.posts :=
    sortSliceG_small pageAfter defaultPage hA1 hA2 s₀.posts hlen
  refine ⟨?_, ?_, ?_, ?_⟩
  · unfold readContent
    rw [hw]
    rfl
  · rw [hsort]
    have hp := foldl_insert_sorted pageAfter hA1 hA2 s₀.posts [] List.Pairwise.nil
    exact List.Pairwise.chain' hp
  · rw [hsort]
    have hp := foldl_insert_perm pageAfter s₀.posts []
    simpa [insortFun] using hp
  · intro d
    rw [hsort]
    have hP : ∀ a b : Page, decide (a.DatePublished = d) = true →
        decide (b.DatePublished = d) = true → pageAfter a b = false := by
      intro a b ha hb
      exact pageAfter_same_date d a b (of_decide_eq_true ha) (of_decide_eq_true hb)
    have hp := foldl_insert_filter pageAfter (fun p => decide (p.DatePublished = d))
      hA1 hA2 hP s₀.posts [] List.Pairwise.nil
    simpa [insortFun] using hp

/-- C4 witness: the three-post walk of `filesC4w` (dates 2023-01-01,
2024-01-01, 2023-01-01 in walk order) re-sorts descending with the tied
2023 posts in their walk order. -/
theorem c4_posts_sorted_small_witness :
    readContent tomlOk fsC4w siteC4 filesC4w =
      some ({ s0C4w with posts := sortPosts s0C4w.posts }, none) ∧
    List.Chain' (fun p q => pageAfter q p = false) (sortPosts s0C4w.posts) ∧
    List.Perm (sortPosts s0C4w.posts) s0C4w.posts ∧
    (sortPosts s0C4w.posts).filter
        (fun p => decide (p.DatePublished = (⟨2023, 1, 1⟩ : GTime))) =
      s0C4w.posts.filter (fun p => decide (p.DatePublished = (⟨2023, 1, 1⟩ : GTime))) := by
  have h := c4_posts_sorted_small tomlOk fsC4w siteC4 filesC4w s0C4w none
    (by rfl) (by decide)
  exact ⟨h.1, h.2.1, h.2.2.1, h.2.2.2 ⟨2023, 1, 1⟩⟩

end Gozer
